import Mathlib

/-!
Verification development for the beeorm entity-persistence core.

The Go sources are shallowly embedded: Go strings become `List Char`
(the modelled inputs are ASCII, where Go's byte-level operations agree
with character-level operations), Go maps with insertion-ordered
iteration become association lists, machine integers become `Nat`
with explicit reduction modulo 2^32 where the code relies on
wrap-around, and Go panics become explicit result constructors.
-/

set_option maxRecDepth 8000

namespace Beeorm

/-- ASCII character-list view of a string literal. -/
def str (s : String) : List Char := s.data

/-- Backtick character (Go code quotes column names with backticks). -/
def btick : Char := Char.ofNat 96

/-! ## SHA-256 (crypto/sha256), used by `tableSchema.init` for the cache-key fingerprint

`init` computes `fmt.Sprintf("%x", sha256.Sum256([]byte(cachePrefix+fieldsQuery)))[0:5]`.
The implementation below is FIPS 180-4 SHA-256 over byte lists, words as `Nat % 2^32`. -/

def M32 : Nat := 4294967296

def add32 (a b : Nat) : Nat := (a + b) % M32

def rotr32 (n x : Nat) : Nat := ((x >>> n) ||| (x <<< (32 - n))) % M32

def ch32 (x y z : Nat) : Nat := (x &&& y) ^^^ ((x ^^^ (M32 - 1)) &&& z)

def maj32 (x y z : Nat) : Nat := (x &&& y) ^^^ (x &&& z) ^^^ (y &&& z)

def bigSig0 (x : Nat) : Nat := rotr32 2 x ^^^ rotr32 13 x ^^^ rotr32 22 x

def bigSig1 (x : Nat) : Nat := rotr32 6 x ^^^ rotr32 11 x ^^^ rotr32 25 x

def smallSig0 (x : Nat) : Nat := rotr32 7 x ^^^ rotr32 18 x ^^^ (x >>> 3)

def smallSig1 (x : Nat) : Nat := rotr32 17 x ^^^ rotr32 19 x ^^^ (x >>> 10)

/-- The 64 SHA-256 round constants (FIPS 180-4 section 4.2.2), in decimal. -/
def shaK : List Nat :=
  [1116352408, 1899447441, 3049323471, 3921009573, 961987163, 1508970993,
   2453635748, 2870763221, 3624381080, 310598401, 607225278, 1426881987,
   1925078388, 2162078206, 2614888103, 3248222580, 3835390401, 4022224774,
   264347078, 604807628, 770255983, 1249150122, 1555081692, 1996064986,
   2554220882, 2821834349, 2952996808, 3210313671, 3336571891, 3584528711,
   113926993, 338241895, 666307205, 773529912, 1294757372, 1396182291,
   1695183700, 1986661051, 2177026350, 2456956037, 2730485921, 2820302411,
   3259730800, 3345764771, 3516065817, 3600352804, 4094571909, 275423344,
   430227734, 506948616, 659060556, 883997877, 958139571, 1322822218,
   1537002063, 1747873779, 1955562222, 2024104815, 2227730452, 2361852424,
   2428436474, 2756734187, 3204031479, 3329325298]

/-- The initial SHA-256 hash state (FIPS 180-4 section 5.3.3), in decimal. -/
def shaH0 : List Nat :=
  [1779033703, 3144134277, 1013904242, 2773480762,
   1359893119, 2600822924, 528734635, 1541459225]

/-- Big-endian byte rendering of `n` on `k` bytes. -/
def beBytes (k n : Nat) : List Nat :=
  (List.range k).map (fun i => (n >>> (8 * (k - 1 - i))) % 256)

/-- SHA-256 message padding. -/
def padMsg (msg : List Nat) : List Nat :=
  msg ++ [128] ++ List.replicate ((64 - ((msg.length + 9) % 64)) % 64) 0 ++ beBytes 8 (8 * msg.length)

/-- Big-endian 32-bit words from bytes. -/
def toWords : List Nat → List Nat
  | b0 :: b1 :: b2 :: b3 :: rest => (((b0 * 256 + b1) * 256 + b2) * 256 + b3) :: toWords rest
  | _ => []

/-- Split bytes into 64-byte blocks (structural recursion on a length fuel). -/
def chunks64Go : Nat → List Nat → List (List Nat)
  | 0, _ => []
  | _, [] => []
  | fuel + 1, a :: rest => ((a :: rest).take 64) :: chunks64Go fuel ((a :: rest).drop 64)

def chunks64 (l : List Nat) : List (List Nat) := chunks64Go l.length l

/-- Extend the 16-word schedule by `k` further words. -/
def extendW (w : List Nat) : Nat → List Nat
  | 0 => w
  | k + 1 =>
    let w' := extendW w k
    let i := w'.length
    w' ++ [add32 (add32 (smallSig1 (w'.getD (i - 2) 0)) (w'.getD (i - 7) 0))
             (add32 (smallSig0 (w'.getD (i - 15) 0)) (w'.getD (i - 16) 0))]

/-- One round of the SHA-256 compression function. -/
def compressStep (wt kt : Nat) : List Nat → List Nat
  | [a, b, c, d, e, f, g, h] =>
    let t1 := add32 h (add32 (bigSig1 e) (add32 (ch32 e f g) (add32 kt wt)))
    let t2 := add32 (bigSig0 a) (maj32 a b c)
    [add32 t1 t2, a, b, c, add32 d t1, e, f, g]
  | s => s

def compressBlock (hs : List Nat) (block : List Nat) : List Nat :=
  let w := extendW (toWords block) 48
  let fin := (List.range 64).foldl (fun st t => compressStep (w.getD t 0) (shaK.getD t 0) st) hs
  List.zipWith add32 hs fin

def sha256Words (msg : List Nat) : List Nat :=
  (chunks64 (padMsg msg)).foldl compressBlock shaH0

def hexDigit (n : Nat) : Char := if n < 10 then Char.ofNat (48 + n) else Char.ofNat (87 + n)

def hexWord (w : Nat) : List Char := (List.range 8).map (fun i => hexDigit ((w >>> (4 * (7 - i))) % 16))

def bytesOf (l : List Char) : List Nat := l.map Char.toNat

/-- Lowercase hex digest of a character list, as Go `fmt.Sprintf("%x", sha256.Sum256(...))`. -/
def sha256hex (l : List Char) : List Char := ((sha256Words (bytesOf l)).map hexWord).flatten

theorem sha256hex_empty :
    sha256hex [] = str "e3b0c44298fc1c149afbf4c8996fb92427ae41e4649b934ca495991b7852b855" := by
  decide

theorem sha256hex_abc :
    sha256hex (str "abc") = str "ba7816bf8f01cfea414140de5dae2223b00361a396177a9cb410ff61f20015ad" := by
  decide

/-! ## Column layout and the cache-key fingerprint (`table_schema.go`)

`buildColumnNames` walks the category-ordered fields and emits, per column,
`",`name`"` — or `",TO_SECONDS(`name`)"` for temporal columns — into `fieldsQuery`
(nested structs are flattened in order). A column layout is therefore modelled as
the ordered list of (name, temporal?) pairs. `init` then computes
`cachePrefix = (pool name if not "default") + tableName`, appends `fieldsQuery`,
and keeps the first 5 hex characters of the SHA-256 digest as the cache-key fingerprint. -/

structure Column where
  name : List Char
  temporal : Bool
deriving DecidableEq

/-- Per-column fragment of `fieldsQuery` as emitted by `buildColumnNames`. -/
def serCol (c : Column) : List Char :=
  if c.temporal then str ",TO_SECONDS(" ++ btick :: c.name ++ btick :: str ")"
  else str "," ++ btick :: c.name ++ [btick]

/-- `fieldsQuery` of a flattened column layout. -/
def fieldsQueryOf (cols : List Column) : List Char := (cols.map serCol).flatten

/-- Pool part of the raw cache prefix: `init` prepends the MySQL pool name only
when it is not "default". -/
def poolPart (pool : List Char) : List Char := if pool = str "default" then [] else pool

/-- The SHA-256 input from which `init` derives the fingerprint. -/
def hashInput (pool table : List Char) (cols : List Column) : List Char :=
  poolPart pool ++ table ++ fieldsQueryOf cols

/-- The cache-key fingerprint: first 5 hex characters of the SHA-256 digest
of `cachePrefix + fieldsQuery` (lines 495-496 of table_schema.go). -/
def cachePfxOf (pool table : List Char) (cols : List Column) : List Char :=
  (sha256hex (hashInput pool table cols)).take 5

/-- Single-entity cache key (`getCacheKey`): `cachePrefix + ":" + strconv.FormatUint(id, 10)`. -/
def getCacheKey (pool table : List Char) (cols : List Column) (id : Nat) : List Char :=
  cachePfxOf pool table cols ++ ':' :: Nat.toDigits 10 id

theorem cachePfx_sample :
    cachePfxOf (str "default") (str "T") [⟨str "C77", false⟩] = str "a51de" := by
  decide

theorem getCacheKey_sample :
    getCacheKey (str "zz") (str "T") [⟨str "A", false⟩] 7 = str "3bdc9:7" := by
  decide

/-! ### Injectivity of the fingerprint hash input over column layouts

Go column names are (possibly prefix-concatenated) exported identifiers:
nonempty words over letters, digits and underscore. -/

def idChar (c : Char) : Bool := c.isAlpha || c.isDigit || c = '_'

def validName (n : List Char) : Bool := !n.isEmpty && n.all idChar

def validCols (cols : List Column) : Bool := cols.all (fun c => validName c.name)

theorem btick_not_mem_of_validName {n : List Char} (h : validName n = true) : btick ∉ n := by
  intro hm
  simp only [validName, Bool.and_eq_true, List.all_eq_true] at h
  have h2 := h.2 _ hm
  have : idChar btick = false := by decide
  rw [this] at h2
  exact Bool.false_ne_true h2

theorem split_at_btick :
    ∀ (a b x y : List Char), btick ∉ a → btick ∉ b →
      a ++ btick :: x = b ++ btick :: y → a = b ∧ x = y := by
  intro a
  induction a with
  | nil =>
    intro b x y _ hb h
    cases b with
    | nil =>
      simp only [List.nil_append, List.cons.injEq] at h
      exact ⟨rfl, h.2⟩
    | cons d bs =>
      simp only [List.nil_append, List.cons_append, List.cons.injEq] at h
      exact absurd (h.1 ▸ List.mem_cons_self d bs) hb
  | cons c as ih =>
    intro b x y ha hb h
    cases b with
    | nil =>
      simp only [List.cons_append, List.nil_append, List.cons.injEq] at h
      exact absurd (h.1 ▸ List.mem_cons_self c as) (h.1 ▸ ha)
    | cons d bs =>
      simp only [List.cons_append, List.cons.injEq] at h
      have ha' : btick ∉ as := fun hmem => ha (List.mem_cons_of_mem c hmem)
      have hb' : btick ∉ bs := fun hmem => hb (List.mem_cons_of_mem d hmem)
      have := ih bs x y ha' hb' h.2
      exact ⟨by rw [h.1, this.1], this.2⟩

theorem fieldsQueryOf_cons (c : Column) (cs : List Column) :
    fieldsQueryOf (c :: cs) = serCol c ++ fieldsQueryOf cs := by
  simp [fieldsQueryOf]

theorem serCol_false_append (n : List Char) (F : List Char) :
    serCol ⟨n, false⟩ ++ F = ',' :: btick :: (n ++ btick :: F) := by
  show (str "," ++ btick :: n ++ [btick]) ++ F = _
  have h1 : str "," = [','] := rfl
  simp [h1]

theorem serCol_true_append (n : List Char) (F : List Char) :
    serCol ⟨n, true⟩ ++ F =
      ',' :: 'T' :: ((str "O_SECONDS(" ++ [btick]) ++ (n ++ btick :: (')' :: F))) := by
  show (str ",TO_SECONDS(" ++ btick :: n ++ btick :: str ")") ++ F = _
  have h1 : str ",TO_SECONDS(" = ',' :: 'T' :: str "O_SECONDS(" := rfl
  have h2 : str ")" = [')'] := rfl
  simp [h1, h2]

theorem fieldsQueryOf_inj :
    ∀ l1 l2 : List Column, validCols l1 = true → validCols l2 = true →
      fieldsQueryOf l1 = fieldsQueryOf l2 → l1 = l2 := by
  intro l1
  induction l1 with
  | nil =>
    intro l2 _ h2 h
    cases l2 with
    | nil => rfl
    | cons c cs =>
      rw [fieldsQueryOf_cons] at h
      rcases c with ⟨n, t⟩
      cases t with
      | false => rw [serCol_false_append] at h; exact absurd h (by simp [fieldsQueryOf])
      | true => rw [serCol_true_append] at h; exact absurd h (by simp [fieldsQueryOf])
  | cons c1 cs1 ih =>
    intro l2 h1 h2 h
    cases l2 with
    | nil =>
      rw [fieldsQueryOf_cons] at h
      rcases c1 with ⟨n, t⟩
      cases t with
      | false => rw [serCol_false_append] at h; exact absurd h (by simp [fieldsQueryOf])
      | true => rw [serCol_true_append] at h; exact absurd h (by simp [fieldsQueryOf])
    | cons c2 cs2 =>
      simp only [validCols, List.all_cons, Bool.and_eq_true] at h1 h2
      rw [fieldsQueryOf_cons, fieldsQueryOf_cons] at h
      rcases c1 with ⟨n1, t1⟩
      rcases c2 with ⟨n2, t2⟩
      have hb1 : btick ∉ n1 := btick_not_mem_of_validName h1.1
      have hb2 : btick ∉ n2 := btick_not_mem_of_validName h2.1
      cases t1 with
      | false =>
        cases t2 with
        | false =>
          rw [serCol_false_append, serCol_false_append] at h
          simp only [List.cons.injEq, true_and] at h
          have hs := split_at_btick n1 n2 _ _ hb1 hb2 h
          have heq := ih cs2 h1.2 h2.2 hs.2
          rw [hs.1, heq]
        | true =>
          rw [serCol_false_append, serCol_true_append] at h
          simp only [List.cons.injEq] at h
          exact absurd h.2.1 (by decide)
      | true =>
        cases t2 with
        | false =>
          rw [serCol_true_append, serCol_false_append] at h
          simp only [List.cons.injEq] at h
          exact absurd h.2.1 (by decide)
        | true =>
          rw [serCol_true_append, serCol_true_append] at h
          simp only [List.cons.injEq, true_and] at h
          have h' := List.append_cancel_left h
          have hs := split_at_btick n1 n2 _ _ hb1 hb2 h'
          have htail : fieldsQueryOf cs1 = fieldsQueryOf cs2 := by
            have := hs.2
            simpa using this
          have heq := ih cs2 h1.2 h2.2 htail
          rw [hs.1, heq]

/-- C1 (counterexample): the truncated fingerprint is not injective over column
layouts. For the default pool and table "T", the single-column layouts "C77" and
"C96" differ in their column set yet `init` derives the same 5-character
cache-key prefix "a51de" for both. -/
theorem C1_fingerprint_collision :
    cachePfxOf (str "default") (str "T") [⟨str "C77", false⟩] =
      cachePfxOf (str "default") (str "T") [⟨str "C96", false⟩] ∧
    ([⟨str "C77", false⟩] : List Column) ≠ [⟨str "C96", false⟩] := by
  constructor
  · decide
  · decide

/-- C1 (amended): for schemas on the same pool and table, two column layouts made
of valid Go identifiers that differ in column set or order always produce distinct
SHA-256 inputs `cachePrefix + fieldsQuery`; only the 5-hex-character truncation of
the digest can collide. Stated as injectivity of the hash input. -/
theorem C1_hash_input_injective (pool table : List Char) (l1 l2 : List Column)
    (h1 : validCols l1 = true) (h2 : validCols l2 = true)
    (heq : hashInput pool table l1 = hashInput pool table l2) : l1 = l2 := by
  apply fieldsQueryOf_inj l1 l2 h1 h2
  have h' : (poolPart pool ++ table) ++ fieldsQueryOf l1 =
      (poolPart pool ++ table) ++ fieldsQueryOf l2 := by
    simpa [hashInput, List.append_assoc] using heq
  exact List.append_cancel_left h'

/-- C1 witness: the amended theorem applied at concrete layouts. -/
theorem C1_hash_input_injective_witness :
    validCols [⟨str "Name", false⟩, ⟨str "CreatedAt", true⟩] = true ∧
    ([⟨str "Name", false⟩, ⟨str "CreatedAt", true⟩] : List Column) =
      [⟨str "Name", false⟩, ⟨str "CreatedAt", true⟩] :=
  ⟨by decide,
   C1_hash_input_injective (str "default") (str "T")
     [⟨str "Name", false⟩, ⟨str "CreatedAt", true⟩]
     [⟨str "Name", false⟩, ⟨str "CreatedAt", true⟩]
     (by decide) (by decide) rfl⟩

/-! ### Shape facts about the digest and the cache key (claim C8) -/

def isHexChar (c : Char) : Bool := c.isDigit || ('a' ≤ c && c ≤ 'f')

theorem compressStep_length (wt kt : Nat) (l : List Nat) :
    (compressStep wt kt l).length = l.length := by
  unfold compressStep
  split
  · rfl
  · rfl

theorem foldl_compressStep_length (w : List Nat) (ts : List Nat) (hs : List Nat) :
    (ts.foldl (fun st t => compressStep (w.getD t 0) (shaK.getD t 0) st) hs).length =
      hs.length := by
  induction ts generalizing hs with
  | nil => rfl
  | cons t ts ih => rw [List.foldl_cons, ih, compressStep_length]

theorem compressBlock_length (hs block : List Nat) (h : hs.length = 8) :
    (compressBlock hs block).length = 8 := by
  unfold compressBlock
  rw [List.length_zipWith, foldl_compressStep_length, h, Nat.min_self]

theorem sha256Words_length (msg : List Nat) : (sha256Words msg).length = 8 := by
  unfold sha256Words
  have key : ∀ (blocks : List (List Nat)) (hs : List Nat), hs.length = 8 →
      (blocks.foldl compressBlock hs).length = 8 := by
    intro blocks
    induction blocks with
    | nil => intro hs h; simpa using h
    | cons b bs ih =>
      intro hs h
      rw [List.foldl_cons]
      exact ih _ (compressBlock_length hs b h)
  exact key _ shaH0 rfl

theorem hexWord_length (w : Nat) : (hexWord w).length = 8 := by
  simp [hexWord]

theorem sha256hex_length (l : List Char) : (sha256hex l).length = 64 := by
  unfold sha256hex
  have h := sha256Words_length (bytesOf l)
  generalize hw : sha256Words (bytesOf l) = ws at h
  clear hw
  have : ∀ ws : List Nat, ((ws.map hexWord).flatten).length = 8 * ws.length := by
    intro ws
    induction ws with
    | nil => rfl
    | cons w ws ih => simp [ih, hexWord_length]; ring
  rw [this, h]

theorem hexDigit_mem_hex (m : Nat) : isHexChar (hexDigit (m % 16)) = true := by
  have hlt : m % 16 < 16 := Nat.mod_lt _ (by decide)
  have : ∀ k, k < 16 → isHexChar (hexDigit k) = true := by decide
  exact this _ hlt

theorem sha256hex_chars (l : List Char) : ∀ c ∈ sha256hex l, isHexChar c = true := by
  intro c hc
  unfold sha256hex at hc
  rw [List.mem_flatten] at hc
  obtain ⟨w, hw, hcw⟩ := hc
  rw [List.mem_map] at hw
  obtain ⟨n, _, rfl⟩ := hw
  unfold hexWord at hcw
  rw [List.mem_map] at hcw
  obtain ⟨i, _, rfl⟩ := hcw
  exact hexDigit_mem_hex _

/-- C8 (counterexample): the spec's key format `<poolPrefixIfNotDefault><tableName
hashed-and-truncated>:<id>` would make every key of a non-default pool begin with
the pool name in clear. In the code the pool name is hashed together with the
table name and column layout, so the key for pool "zz" does not start with "zz". -/
theorem C8_pool_name_not_in_clear :
    (str "zz" ≠ str "default") ∧
    (getCacheKey (str "zz") (str "T") [⟨str "A", false⟩] 7).take 2 ≠ str "zz" := by
  constructor
  · decide
  · decide

/-- C8 (amended): the single-entity cache key equals the schema's cache-key prefix,
":", and the decimal rendering of the id, where the prefix is the 5-hex-character
truncation of the SHA-256 digest of the concatenation of the pool prefix (present
only when the pool is not "default"), the table name, and the column-layout
serialization `fieldsQuery`. -/
theorem C8_cache_key_format (pool table : List Char) (cols : List Column) (id : Nat) :
    getCacheKey pool table cols id =
      cachePfxOf pool table cols ++ ':' :: Nat.toDigits 10 id ∧
    cachePfxOf pool table cols =
      (sha256hex (poolPart pool ++ table ++ fieldsQueryOf cols)).take 5 ∧
    (pool = str "default" → poolPart pool = []) ∧
    (pool ≠ str "default" → poolPart pool = pool) ∧
    (cachePfxOf pool table cols).length = 5 ∧
    (∀ c ∈ cachePfxOf pool table cols, isHexChar c = true) := by
  refine ⟨rfl, rfl, ?_, ?_, ?_, ?_⟩
  · intro h; simp [poolPart, h]
  · intro h; simp [poolPart, h]
  · have h64 := sha256hex_length (hashInput pool table cols)
    simp [cachePfxOf, List.length_take, h64]
  · intro c hc
    exact sha256hex_chars _ c (List.mem_of_mem_take hc)

/-- C8 witness: the amended theorem applied at a concrete non-default pool. -/
theorem C8_cache_key_format_witness :
    (str "zz" ≠ str "default") ∧ poolPart (str "zz") = str "zz" ∧
    (cachePfxOf (str "zz") (str "T") [⟨str "A", false⟩]).length = 5 :=
  ⟨by decide,
   (C8_cache_key_format (str "zz") (str "T") [⟨str "A", false⟩] 7).2.2.2.1 (by decide),
   (C8_cache_key_format (str "zz") (str "T") [⟨str "A", false⟩] 7).2.2.2.2.1⟩

/-! ## Association lists: Go maps with deterministic first-match lookup -/

def assocFind {β : Type} (m : List (List Char × β)) (k : List Char) : Option β :=
  match m with
  | [] => none
  | (k', v) :: rest => if k = k' then some v else assocFind rest k

def mapInsert {β : Type} (m : List (List Char × β)) (k : List Char) (v : β) :
    List (List Char × β) :=
  match m with
  | [] => [(k, v)]
  | (k', v') :: rest => if k = k' then (k', v) :: rest else (k', v') :: mapInsert rest k v

theorem assocFind_mapInsert {β : Type} (m : List (List Char × β)) (k : List Char) (v : β)
    (x : List Char) :
    assocFind (mapInsert m k v) x = if x = k then some v else assocFind m x := by
  induction m with
  | nil =>
    simp only [mapInsert, assocFind]
  | cons p rest ih =>
    rcases p with ⟨k', v'⟩
    by_cases hk : k = k'
    · subst hk
      by_cases hx : x = k <;> simp [mapInsert, assocFind, hx]
    · by_cases hx : x = k'
      · subst hx
        have hxk : ¬ x = k := fun h => hk h.symm
        simp [mapInsert, assocFind, hk, hxk]
      · simp [mapInsert, assocFind, hk, hx, ih]

/-! ## Enum model (`enum` / `initEnum` in table_schema.go)

`initEnum` reflects over a struct of string fields: it collects the field values
in declaration order into `fields` and sets `mapping[value] = i + 1`. The model
takes the declaration-ordered field values directly. The optional variadic
default becomes an `Option`; the `fields[0]` access panics in Go on a fieldless
struct, modelled as `none`. -/

structure EnumModel where
  fields : List (List Char)
  mapping : List (List Char × Nat)
  defaultValue : List Char
deriving DecidableEq

def buildMapping : List (List Char) → Nat → List (List Char × Nat) → List (List Char × Nat)
  | [], _, m => m
  | v :: vs, i, m => buildMapping vs (i + 1) (mapInsert m v (i + 1))

def initEnum (vals : List (List Char)) (defaultVal : Option (List Char)) : Option EnumModel :=
  let mapping := buildMapping vals 0 []
  match defaultVal with
  | some d => some ⟨vals, mapping, d⟩
  | none =>
    match vals with
    | v0 :: _ => some ⟨vals, mapping, v0⟩
    | [] => none

def EnumModel.GetFields (e : EnumModel) : List (List Char) := e.fields

def EnumModel.GetDefault (e : EnumModel) : List Char := e.defaultValue

def EnumModel.Has (e : EnumModel) (v : List Char) : Bool := (assocFind e.mapping v).isSome

def EnumModel.Index (e : EnumModel) (v : List Char) : Nat := (assocFind e.mapping v).getD 0

/-- 0-based position of the first occurrence of `x`. -/
def posOf : List (List Char) → List Char → Nat
  | [], _ => 0
  | v :: vs, x => if x = v then 0 else posOf vs x + 1

theorem buildMapping_find (vals : List (List Char)) :
    ∀ (i : Nat) (m : List (List Char × Nat)) (x : List Char),
      vals.Nodup → (∀ y ∈ vals, assocFind m y = none) →
      assocFind (buildMapping vals i m) x =
        if x ∈ vals then some (i + posOf vals x + 1) else assocFind m x := by
  induction vals with
  | nil => intro i m x _ _; simp [buildMapping]
  | cons v vs ih =>
    intro i m x hnd hnone
    have hvd : v ∉ vs := (List.nodup_cons.mp hnd).1
    have hnd' : vs.Nodup := (List.nodup_cons.mp hnd).2
    have hnone' : ∀ y ∈ vs, assocFind (mapInsert m v (i + 1)) y = none := by
      intro y hy
      rw [assocFind_mapInsert]
      have hyv : ¬ y = v := fun h => hvd (h ▸ hy)
      simp only [hyv, if_false]
      exact hnone y (List.mem_cons_of_mem v hy)
    have key := ih (i + 1) (mapInsert m v (i + 1)) x hnd' hnone'
    show assocFind (buildMapping vs (i + 1) (mapInsert m v (i + 1))) x = _
    rw [key]
    by_cases hxv : x = v
    · subst hxv
      have hxs : x ∉ vs := hvd
      simp [hxs, posOf, assocFind_mapInsert]
    · by_cases hxs : x ∈ vs
      · simp only [hxs, if_true, List.mem_cons, hxs, or_true, if_true]
        have : posOf (v :: vs) x = posOf vs x + 1 := by simp [posOf, hxv]
        rw [this]
        congr 1
        omega
      · have hnx : x ∉ v :: vs := by
          simp [List.mem_cons, hxv, hxs]
        simp only [hxs, if_false, hnx, if_false]
        rw [assocFind_mapInsert]
        simp [hxv]

/-- C10: for every enum built from a struct of (distinct) string fields, `GetFields`
returns the values in declaration order, `Index` is the 1-based position (0 when
absent), `Has` is membership, and `GetDefault` is the first field unless an
explicit default was supplied. -/
theorem C10_enum_contract (vals : List (List Char)) (d : Option (List Char))
    (hne : vals ≠ []) (hnd : vals.Nodup) :
    ∃ e, initEnum vals d = some e ∧
      e.GetFields = vals ∧
      (∀ v, e.Has v = decide (v ∈ vals)) ∧
      (∀ v, v ∈ vals → e.Index v = posOf vals v + 1) ∧
      (∀ v, v ∉ vals → e.Index v = 0) ∧
      (∀ dv, d = some dv → e.GetDefault = dv) ∧
      (d = none → ∃ v0 rest, vals = v0 :: rest ∧ e.GetDefault = v0) := by
  have hfind : ∀ x, assocFind (buildMapping vals 0 []) x =
      if x ∈ vals then some (0 + posOf vals x + 1) else none := by
    intro x
    rw [buildMapping_find vals 0 [] x hnd (by intro y _; rfl)]
    by_cases hx : x ∈ vals <;> simp [hx, assocFind]
  obtain ⟨v0, rest, rfl⟩ : ∃ v0 rest, vals = v0 :: rest := by
    cases vals with
    | nil => exact absurd rfl hne
    | cons a l => exact ⟨a, l, rfl⟩
  have main : ∀ e : EnumModel, e.mapping = buildMapping (v0 :: rest) 0 [] →
      (∀ v, e.Has v = decide (v ∈ v0 :: rest)) ∧
      (∀ v, v ∈ v0 :: rest → e.Index v = posOf (v0 :: rest) v + 1) ∧
      (∀ v, v ∉ v0 :: rest → e.Index v = 0) := by
    intro e he
    refine ⟨fun v => ?_, fun v hv => ?_, fun v hv => ?_⟩
    · rw [EnumModel.Has, he, hfind]
      by_cases hv : v ∈ v0 :: rest <;> simp [hv]
    · rw [EnumModel.Index, he, hfind]
      simp [hv]
    · rw [EnumModel.Index, he, hfind]
      simp [hv]
  cases d with
  | some dv =>
    have h := main ⟨v0 :: rest, buildMapping (v0 :: rest) 0 [], dv⟩ rfl
    refine ⟨⟨v0 :: rest, buildMapping (v0 :: rest) 0 [], dv⟩, rfl, rfl, h.1, h.2.1, h.2.2,
      ?_, ?_⟩
    · intro dv' hdv'
      cases hdv'
      rfl
    · intro hcon
      cases hcon
  | none =>
    have h := main ⟨v0 :: rest, buildMapping (v0 :: rest) 0 [], v0⟩ rfl
    refine ⟨⟨v0 :: rest, buildMapping (v0 :: rest) 0 [], v0⟩, rfl, rfl, h.1, h.2.1, h.2.2,
      ?_, ?_⟩
    · intro dv' hdv'
      cases hdv'
    · intro _
      exact ⟨v0, rest, rfl, rfl⟩

/-- C10 witness: the enum contract applied at the concrete enum {"red", "blue"}. -/
theorem C10_enum_contract_witness :
    ([str "red", str "blue"] ≠ ([] : List (List Char))) ∧
    ([str "red", str "blue"] : List (List Char)).Nodup ∧
    ∃ e, initEnum [str "red", str "blue"] none = some e ∧
      e.GetFields = [str "red", str "blue"] ∧
      (∀ v, e.Has v = decide (v ∈ [str "red", str "blue"])) ∧
      (∀ v, v ∈ [str "red", str "blue"] → e.Index v = posOf [str "red", str "blue"] v + 1) ∧
      (∀ v, v ∉ [str "red", str "blue"] → e.Index v = 0) ∧
      (∀ dv, (none : Option (List Char)) = some dv → e.GetDefault = dv) ∧
      ((none : Option (List Char)) = none →
        ∃ v0 rest, [str "red", str "blue"] = v0 :: rest ∧ e.GetDefault = v0) :=
  ⟨by decide, by decide,
   C10_enum_contract [str "red", str "blue"] none (by decide) (by decide)⟩

/-! ## Pool-reference validation in `tableSchema.init` (lines 285-304)

`init` resolves the entity's `mysql`, `localCache` and `redisCache` tags and
verifies the referenced pools against the registry. Faithfully to the source,
the redisCache pool is looked up in `registry.mysqlPools` (line 300) even though
the returned error says "redis pool ... not found". Error values are modelled
structurally instead of as formatted message strings. -/

structure RegistryPools where
  mysqlPools : List (List Char)
  localCachePools : List (List Char)
  redisPools : List (List Char)
deriving DecidableEq

inductive SchemaErr where
  | mysqlPoolNotFound (name : List Char)
  | localCachePoolNotFound (name : List Char)
  | redisPoolNotFound (name : List Char)
  | duplicatedIndex (a b : List Char)
  | missingUniqueIndex (queryName : List Char)
  | missingIndex (queryName : List Char)
deriving DecidableEq

/-- The pool checks of `init`, in source order. -/
def initPoolChecks (reg : RegistryPools) (mysqlPoolName localCache redisCache : List Char) :
    Option SchemaErr :=
  if mysqlPoolName ∉ reg.mysqlPools then some (SchemaErr.mysqlPoolNotFound mysqlPoolName)
  else if localCache ≠ [] ∧ localCache ∉ reg.localCachePools then
    some (SchemaErr.localCachePoolNotFound localCache)
  else if redisCache ≠ [] ∧ redisCache ∉ reg.mysqlPools then
    some (SchemaErr.redisPoolNotFound redisCache)
  else none

/-- C5: the claim says schema build fails exactly when a referenced pool is not
registered. The code instead looks the `redisCache` pool name up in the MySQL
pool map: with redis pool "cacheA" registered (and referenced), `init` still
fails with a "redis pool not found" error, and conversely a completely
unregistered redis pool named like a MySQL pool passes validation. -/
theorem C5_redis_pool_checked_in_mysql_map :
    ((str "cacheA") ∈ (RegistryPools.mk [str "default"] [] [str "cacheA"]).redisPools ∧
      initPoolChecks (RegistryPools.mk [str "default"] [] [str "cacheA"])
        (str "default") [] (str "cacheA") =
        some (SchemaErr.redisPoolNotFound (str "cacheA"))) ∧
    ((str "oops") ∉ (RegistryPools.mk [str "default", str "oops"] [] []).redisPools ∧
      initPoolChecks (RegistryPools.mk [str "default", str "oops"] [] [])
        (str "default") [] (str "oops") = none) := by
  constructor
  · constructor
    · decide
    · decide
  · constructor
    · decide
    · decide

/-! ## Lazy flush consumer (`LazyFlushConsumer.handleEvents`)

`Digest` deserializes every consumed event into its `entitySQLFlush` records and
concatenates them into `lazyEvents`, so one event can carry several records.
`handleEvents` first executes the whole concatenation; if that panics with a
`*mysql.MySQLError` it replays each RECORD in isolation, acknowledging
`events[i]` where `i` is the record index in `lazyEvents`, and resolving
failures through the resolver chain called with the OUTER (batch) error `rec`
(the inner `rec2` is only re-panicked).

Flush records are abstract (`Nat`), MySQL errors are abstract identities
(`Nat`), and `flusher.execute` is an oracle from the executed record list to an
optional panic value. Go's `events[i].Ack()` on an index past the end of
`events` is an index-out-of-range runtime panic. -/

abbrev FlushRec := Nat

abbrev MySQLErrId := Nat

inductive PanicVal where
  | mysqlErr (e : MySQLErrId)
  | otherPanic (n : Nat)
deriving DecidableEq

abbrev ExecOracle := List FlushRec → Option PanicVal

/-- A registered `LazyFlushQueryErrorResolver`: `true` models returning nil. -/
abbrev Resolver := FlushRec → MySQLErrId → Bool

inductive RunEnd where
  | ok
  | panicked (v : PanicVal)
  | indexOutOfRange
deriving DecidableEq

structure RunOut where
  acked : List Nat
  outcome : RunEnd
deriving DecidableEq

/-- The isolated-replay loop entered by the deferred recover of `handleEvents`:
`for i, e := range lazyEvents { ... f.execute ... events[i].Ack() ... }`. -/
def replayLoop (events : List (List FlushRec)) (exec : ExecOracle)
    (resolvers : List Resolver) (outerErr : MySQLErrId) :
    List FlushRec → Nat → List Nat → RunOut
  | [], _, acked => ⟨acked, RunEnd.ok⟩
  | r :: rest, i, acked =>
    match exec [r] with
    | none =>
      if i < events.length then
        replayLoop events exec resolvers outerErr rest (i + 1) (acked ++ [i])
      else ⟨acked, RunEnd.indexOutOfRange⟩
    | some pv =>
      if resolvers.any (fun res => res r outerErr) then
        if i < events.length then
          replayLoop events exec resolvers outerErr rest (i + 1) (acked ++ [i])
        else ⟨acked, RunEnd.indexOutOfRange⟩
      else ⟨acked, RunEnd.panicked pv⟩

/-- `handleEvents`: run the concatenated batch; on a MySQL panic enter isolated
replay; re-panic anything that is not a MySQL error. -/
def handleEvents (events : List (List FlushRec)) (exec : ExecOracle)
    (resolvers : List Resolver) : RunOut :=
  let lazyEvents := events.flatten
  match exec lazyEvents with
  | none => ⟨[], RunEnd.ok⟩
  | some (PanicVal.otherPanic n) => ⟨[], RunEnd.panicked (PanicVal.otherPanic n)⟩
  | some (PanicVal.mysqlErr err) => replayLoop events exec resolvers err lazyEvents 0 []

/-- Batch-failure oracle for C2: the two-record batch fails, each isolated
single-record replay succeeds. -/
def execC2 : ExecOracle := fun l =>
  if l = [10, 11] then some (PanicVal.mysqlErr 1) else none

/-- C2: one consumed event carrying two flush records (as `Digest` produces when
a lazy batch was published as one payload), batch fails with a MySQL error, both
isolated replays succeed. The claim requires that exactly that event is
acknowledged and processing ends normally. The code acknowledges `events[0]`
after the FIRST record and then evaluates `events[1]`, which does not exist:
it crashes with an index-out-of-range panic. -/
theorem C2_ack_indexed_by_record_crashes :
    handleEvents [[10, 11]] execC2 [] = ⟨[0], RunEnd.indexOutOfRange⟩ := by
  decide

/-- Oracle for C3: the batch of both events fails with MySQL error 1; the
isolated replay of the second event's record fails with the DIFFERENT MySQL
error 2; everything else succeeds. -/
def execC3 : ExecOracle := fun l =>
  if l = [10, 11] then some (PanicVal.mysqlErr 1)
  else if l = [11] then some (PanicVal.mysqlErr 2)
  else none

/-- A resolver that resolves exactly MySQL error 2 — the error the isolated
replay actually fails with. -/
def resolverC3 : Resolver := fun _ err => err == 2

/-- C3: the claim says the resolver chain receives the failing (isolated)
execution's error, so `resolverC3` would resolve error 2 and event 1 would be
acknowledged with processing continuing. The code passes the OUTER batch error
(`rec`, here 1) instead of the isolated error (`rec2`, here 2): the resolver
declines, the consumer panics with the unresolved error, and event 1 stays
unacknowledged. -/
theorem C3_resolver_receives_batch_error :
    handleEvents [[10], [11]] execC3 [resolverC3] =
      ⟨[0], RunEnd.panicked (PanicVal.mysqlErr 2)⟩ ∧
    resolverC3 11 2 = true ∧ resolverC3 11 1 = false := by
  refine ⟨?_, ?_, ?_⟩
  · decide
  · decide
  · decide

/-! ## Engine pool getters (`Engine.GetMysql` / `GetLocalCache` / `GetRedis`)

The engine lazily creates one client per pool code, memoized in per-engine maps,
and panics on an unregistered code — except that `GetLocalCache` silently creates
a bounded cache with limit 5000 for the reserved request-cache code. Pool objects
carry their creation parameters; "the same instance" is modelled as the stored
map entry being returned with the state unchanged. -/

/-- Modelled from the spec: the reserved request-cache pool code. The constant's
defining declaration is not among the provided sources (only its use in
`GetLocalCache`); the claims depend only on it being a distinguished code. -/
def requestCacheKey : List Char := str "_request"

structure DBObj where
  code : List Char
deriving DecidableEq

structure LocalCacheObj where
  code : List Char
  limit : Nat
deriving DecidableEq

structure RedisObj where
  code : List Char
deriving DecidableEq

structure ValidatedRegistryM where
  mySQLServers : List (List Char)
  localCacheServers : List (List Char × Nat)
  redisServers : List (List Char)

structure EngineSt where
  dbs : List (List Char × DBObj)
  localCache : List (List Char × LocalCacheObj)
  redis : List (List Char × RedisObj)
deriving DecidableEq

inductive PanicMsg where
  | unregisteredMysqlPool (code : List Char)
  | unregisteredLocalCachePool (code : List Char)
  | unregisteredRedisCachePool (code : List Char)
deriving DecidableEq

inductive GoRes (α : Type) where
  | ok (a : α)
  | panicked (m : PanicMsg)
deriving DecidableEq

def GetMysql (reg : ValidatedRegistryM) (dbCode : List Char) (e : EngineSt) :
    GoRes (DBObj × EngineSt) :=
  match assocFind e.dbs dbCode with
  | some db => GoRes.ok (db, e)
  | none =>
    if dbCode ∈ reg.mySQLServers then
      GoRes.ok (⟨dbCode⟩, { e with dbs := e.dbs ++ [(dbCode, ⟨dbCode⟩)] })
    else GoRes.panicked (PanicMsg.unregisteredMysqlPool dbCode)

def GetLocalCache (reg : ValidatedRegistryM) (dbCode : List Char) (e : EngineSt) :
    GoRes (LocalCacheObj × EngineSt) :=
  match assocFind e.localCache dbCode with
  | some c => GoRes.ok (c, e)
  | none =>
    match assocFind reg.localCacheServers dbCode with
    | some lim =>
      GoRes.ok (⟨dbCode, lim⟩, { e with localCache := e.localCache ++ [(dbCode, ⟨dbCode, lim⟩)] })
    | none =>
      if dbCode = requestCacheKey then
        GoRes.ok (⟨dbCode, 5000⟩,
          { e with localCache := e.localCache ++ [(dbCode, ⟨dbCode, 5000⟩)] })
      else GoRes.panicked (PanicMsg.unregisteredLocalCachePool dbCode)

def GetRedis (reg : ValidatedRegistryM) (dbCode : List Char) (e : EngineSt) :
    GoRes (RedisObj × EngineSt) :=
  match assocFind e.redis dbCode with
  | some c => GoRes.ok (c, e)
  | none =>
    if dbCode ∈ reg.redisServers then
      GoRes.ok (⟨dbCode⟩, { e with redis := e.redis ++ [(dbCode, ⟨dbCode⟩)] })
    else GoRes.panicked (PanicMsg.unregisteredRedisCachePool dbCode)

theorem assocFind_append_of_none {β : Type} (m : List (List Char × β)) (k : List Char)
    (v : β) (h : assocFind m k = none) : assocFind (m ++ [(k, v)]) k = some v := by
  induction m with
  | nil => simp [assocFind]
  | cons p rest ih =>
    rcases p with ⟨k', v'⟩
    by_cases hk : k = k'
    · simp [assocFind, hk] at h
    · simp only [assocFind, hk, if_false] at h
      simp [assocFind, hk, ih h]

/-- C9: `GetLocalCache` with the reserved request-cache code never fails even when
that pool is unregistered — it lazily creates and memoizes a cache bounded at
5000 — while the getters with any other unregistered code panic with an
"unregistered ... pool" error, and a pool object returned once is returned
identically (same stored instance, unchanged state) by every subsequent call. -/
theorem C9_engine_pool_getters (reg : ValidatedRegistryM) :
    (∀ e : EngineSt, assocFind reg.localCacheServers requestCacheKey = none →
      assocFind e.localCache requestCacheKey = none →
      GetLocalCache reg requestCacheKey e =
        GoRes.ok (⟨requestCacheKey, 5000⟩,
          { e with localCache :=
              e.localCache ++ [(requestCacheKey, ⟨requestCacheKey, 5000⟩)] })) ∧
    (∀ (code : List Char) (e : EngineSt), code ≠ requestCacheKey →
      assocFind reg.localCacheServers code = none →
      assocFind e.localCache code = none →
      GetLocalCache reg code e = GoRes.panicked (PanicMsg.unregisteredLocalCachePool code)) ∧
    (∀ (code : List Char) (e : EngineSt), code ≠ requestCacheKey →
      code ∉ reg.mySQLServers → assocFind e.dbs code = none →
      GetMysql reg code e = GoRes.panicked (PanicMsg.unregisteredMysqlPool code)) ∧
    (∀ (code : List Char) (e : EngineSt), code ≠ requestCacheKey →
      code ∉ reg.redisServers → assocFind e.redis code = none →
      GetRedis reg code e = GoRes.panicked (PanicMsg.unregisteredRedisCachePool code)) ∧
    (∀ (code : List Char) (e : EngineSt) (c : LocalCacheObj) (e' : EngineSt),
      GetLocalCache reg code e = GoRes.ok (c, e') →
      GetLocalCache reg code e' = GoRes.ok (c, e')) := by
  refine ⟨?_, ?_, ?_, ?_, ?_⟩
  · intro e hreg hst
    simp [GetLocalCache, hst, hreg]
  · intro code e hne hreg hst
    simp [GetLocalCache, hst, hreg, hne]
  · intro code e _ hreg hst
    simp [GetMysql, hst, hreg]
  · intro code e _ hreg hst
    simp [GetRedis, hst, hreg]
  · intro code e c e' h
    unfold GetLocalCache at h ⊢
    cases hst : assocFind e.localCache code with
    | some c0 =>
      rw [hst] at h
      cases h
      rw [hst]
    | none =>
      rw [hst] at h
      cases hreg : assocFind reg.localCacheServers code with
      | some lim =>
        rw [hreg] at h
        cases h
        rw [assocFind_append_of_none _ _ _ hst]
      | none =>
        rw [hreg] at h
        by_cases hrck : code = requestCacheKey
        · rw [if_pos hrck] at h
          cases h
          rw [assocFind_append_of_none _ _ _ hst]
        · rw [if_neg hrck] at h
          cases h

/-- C9 witness: the getter contract at a concrete registry and fresh engine. -/
theorem C9_engine_pool_getters_witness :
    (GetLocalCache ⟨[str "default"], [(str "default", 100)], [str "default"]⟩
        requestCacheKey ⟨[], [], []⟩ =
      GoRes.ok (⟨requestCacheKey, 5000⟩,
        ⟨[], [(requestCacheKey, ⟨requestCacheKey, 5000⟩)], []⟩)) ∧
    (GetLocalCache ⟨[str "default"], [(str "default", 100)], [str "default"]⟩
        (str "nope") ⟨[], [], []⟩ =
      GoRes.panicked (PanicMsg.unregisteredLocalCachePool (str "nope"))) ∧
    (GetMysql ⟨[str "default"], [(str "default", 100)], [str "default"]⟩
        (str "nope") ⟨[], [], []⟩ =
      GoRes.panicked (PanicMsg.unregisteredMysqlPool (str "nope"))) ∧
    (GetRedis ⟨[str "default"], [(str "default", 100)], [str "default"]⟩
        (str "nope") ⟨[], [], []⟩ =
      GoRes.panicked (PanicMsg.unregisteredRedisCachePool (str "nope"))) ∧
    (GetLocalCache ⟨[str "default"], [(str "default", 100)], [str "default"]⟩
        (str "default") ⟨[], [(str "default", ⟨str "default", 100⟩)], []⟩ =
      GoRes.ok (⟨str "default", 100⟩, ⟨[], [(str "default", ⟨str "default", 100⟩)], []⟩)) :=
  ⟨(C9_engine_pool_getters _).1 _ (by decide) (by decide),
   (C9_engine_pool_getters _).2.1 _ _ (by decide) (by decide) (by decide),
   (C9_engine_pool_getters _).2.2.1 _ _ (by decide) (by decide) (by decide),
   (C9_engine_pool_getters _).2.2.2.1 _ _ (by decide) (by decide) (by decide),
   (C9_engine_pool_getters _).2.2.2.2 (str "default") ⟨[], [], []⟩ _ _ (by decide)⟩

/-! ## Index and query-template validation (`tableSchema.validateIndexes`)

Indexes are declared as maps name → (ordinal → column); with contiguous
ordinals 1..n they are ordered column lists. `validateIndexes` first rejects
prefix-duplicate index pairs over the merged unique+plain index collection,
then requires every single-row cached query's filter columns to be exactly the
columns of some unique index (set comparison via pair counting), and finally
requires multi-row cached queries to be covered, in order, by some index,
transparently ignoring a trailing FakeDelete column. Go map iteration order is
nondeterministic; the models iterate in list order, which settles the
pass/fail questions the claims ask. -/

/-- The inner `same == len(v)` loop: counts matching columns from ordinal 1 and
succeeds iff `v` is a (possibly equal) prefix of `v2`. -/
def listPfx : List (List Char) → List (List Char) → Bool
  | [], _ => true
  | _ :: _, [] => false
  | a :: as, b :: bs => a == b && listPfx as bs

def dupCheck (all : List (List Char × List (List Char))) : Option SchemaErr :=
  all.findSome? (fun p =>
    all.findSome? (fun p2 =>
      if p.1 ≠ p2.1 ∧ listPfx p.2 p2.2 = true then
        some (SchemaErr.duplicatedIndex p.1 p2.1)
      else none))

/-- `valid` counter of `validateIndexes`: for each query field, one unit per
equal column of the candidate index. -/
def cnt (x : List Char) : List (List Char) → Nat
  | [] => 0
  | y :: ys => (if x = y then 1 else 0) + cnt x ys

def countValid (qf cols : List (List Char)) : Nat := (qf.map (fun f1 => cnt f1 cols)).sum

def queryOneCheck (uniq cachedOne : List (List Char × List (List Char))) : Option SchemaErr :=
  cachedOne.findSome? (fun kv =>
    if uniq.any (fun u => u.2.length == kv.2.length && countValid kv.2 u.2 == u.2.length) then
      none
    else some (SchemaErr.missingUniqueIndex kv.1))

structure CachedDef where
  qname : List Char
  query : List Char
  queryFields : List (List Char)
  orderFields : List (List Char)
deriving DecidableEq

/-- `columns[key]` for a 1-based ordinal map: the zero value "" when absent. -/
def colAtStr (cols : List (List Char)) : Nat → List Char
  | 0 => []
  | k + 1 => cols.getD k []

/-- The order-suffix loop of `validateIndexes`, walking order fields from the
last one and the index columns downward from `key`. -/
def orderLoop (cols : List (List Char)) : Nat → List (List Char) → Nat
  | _, [] => 0
  | key, f :: fs => if colAtStr cols key = f then 1 + orderLoop cols (key - 1) fs else 0

def fakeDeleteName : List Char := str "FakeDelete"

def coveredMulti (all : List (List Char × List (List Char))) (qf ofs : List (List Char)) :
    Bool :=
  all.any (fun kv =>
    countValid qf kv.2 == qf.length &&
    (ofs.isEmpty ||
      orderLoop kv.2
        (if kv.2.getLast? = some fakeDeleteName then kv.2.length - 1 else kv.2.length)
        ofs.reverse == ofs.length))

def defaultAllQuery : List Char := str "1 ORDER BY `ID`"

def multiCheck (all : List (List Char × List (List Char))) (cachedMulti : List CachedDef) :
    Option SchemaErr :=
  cachedMulti.findSome? (fun v =>
    if v.query = defaultAllQuery then none
    else if coveredMulti all v.queryFields v.orderFields then none
    else some (SchemaErr.missingIndex v.qname))

def validateIndexes (uniq nonuniq cachedOne : List (List Char × List (List Char)))
    (cachedMulti : List CachedDef) : Option SchemaErr :=
  match dupCheck (uniq ++ nonuniq) with
  | some e => some e
  | none =>
    match queryOneCheck uniq cachedOne with
    | some e => some e
    | none => multiCheck (uniq ++ nonuniq) cachedMulti

theorem listPfx_iff (a b : List (List Char)) : listPfx a b = true ↔ ∃ t, a ++ t = b := by
  induction a generalizing b with
  | nil => simp [listPfx]
  | cons x as ih =>
    cases b with
    | nil =>
      simp only [listPfx]
      constructor
      · intro h; cases h
      · rintro ⟨t, ht⟩; cases ht
    | cons y bs =>
      simp only [listPfx, Bool.and_eq_true, beq_iff_eq, ih]
      constructor
      · rintro ⟨rfl, t, rfl⟩; exact ⟨t, rfl⟩
      · rintro ⟨t, ht⟩
        rw [List.cons_append] at ht
        injection ht with h1 h2
        exact ⟨h1, t, h2⟩

theorem nodup_keys_inj {l : List (List Char × List (List Char))}
    (h : (l.map Prod.fst).Nodup) :
    ∀ p ∈ l, ∀ p2 ∈ l, p.1 = p2.1 → p = p2 := by
  induction l with
  | nil => intro p hp; cases hp
  | cons q rest ih =>
    intro p hp p2 hp2 heq
    rw [List.map_cons, List.nodup_cons] at h
    rcases List.mem_cons.mp hp with hpq | hp'
    · rcases List.mem_cons.mp hp2 with hpq2 | hp2'
      · rw [hpq, hpq2]
      · subst hpq
        exact absurd (heq ▸ List.mem_map_of_mem Prod.fst hp2') h.1
    · rcases List.mem_cons.mp hp2 with hpq2 | hp2'
      · subst hpq2
        exact absurd (heq ▸ List.mem_map_of_mem Prod.fst hp') h.1
      · exact ih h.2 p hp' p2 hp2' heq

theorem dupCheck_eq_none_iff (all : List (List Char × List (List Char))) :
    dupCheck all = none ↔
      ∀ p ∈ all, ∀ p2 ∈ all, ¬(p.1 ≠ p2.1 ∧ listPfx p.2 p2.2 = true) := by
  unfold dupCheck
  rw [List.findSome?_eq_none_iff]
  constructor
  · intro h p hp p2 hp2 hcond
    have h2 := h p hp
    rw [List.findSome?_eq_none_iff] at h2
    have h3 := h2 p2 hp2
    rw [if_pos hcond] at h3
    cases h3
  · intro h p hp
    rw [List.findSome?_eq_none_iff]
    intro p2 hp2
    rw [if_neg (h p hp p2 hp2)]

theorem dupCheck_some_shape (all : List (List Char × List (List Char))) (e : SchemaErr)
    (h : dupCheck all = some e) : ∃ a b, e = SchemaErr.duplicatedIndex a b := by
  unfold dupCheck at h
  obtain ⟨p, _, hp⟩ := List.exists_of_findSome?_eq_some h
  obtain ⟨p2, _, hp2⟩ := List.exists_of_findSome?_eq_some hp
  by_cases hc : p.1 ≠ p2.1 ∧ listPfx p.2 p2.2 = true
  · rw [if_pos hc] at hp2
    exact ⟨p.1, p2.1, by cases hp2; rfl⟩
  · rw [if_neg hc] at hp2
    cases hp2

/-- C6: validation fails with a "duplicated index" error exactly when two distinct
declared indexes (unique or plain, merged as in the source) are in the
column-prefix relation; with no such pair the duplication check passes. -/
theorem C6_prefix_duplicate_indexes (uniq nonuniq cachedOne :
      List (List Char × List (List Char))) (cachedMulti : List CachedDef)
    (hnd : ((uniq ++ nonuniq).map Prod.fst).Nodup) :
    ((∃ p ∈ uniq ++ nonuniq, ∃ p2 ∈ uniq ++ nonuniq, p ≠ p2 ∧ ∃ t, p.2 ++ t = p2.2) →
      ∃ a b, validateIndexes uniq nonuniq cachedOne cachedMulti =
        some (SchemaErr.duplicatedIndex a b)) ∧
    ((¬ ∃ p ∈ uniq ++ nonuniq, ∃ p2 ∈ uniq ++ nonuniq, p ≠ p2 ∧ ∃ t, p.2 ++ t = p2.2) →
      dupCheck (uniq ++ nonuniq) = none) := by
  constructor
  · rintro ⟨p, hp, p2, hp2, hne, t, ht⟩
    have hdup : dupCheck (uniq ++ nonuniq) ≠ none := by
      intro hnone
      rw [dupCheck_eq_none_iff] at hnone
      refine hnone p hp p2 hp2 ⟨?_, (listPfx_iff _ _).mpr ⟨t, ht⟩⟩
      intro heq
      exact hne (nodup_keys_inj hnd p hp p2 hp2 heq)
    cases hdc : dupCheck (uniq ++ nonuniq) with
    | none => exact absurd hdc hdup
    | some e =>
      obtain ⟨a, b, rfl⟩ := dupCheck_some_shape _ _ hdc
      refine ⟨a, b, ?_⟩
      unfold validateIndexes
      rw [hdc]
  · intro hno
    rw [dupCheck_eq_none_iff]
    intro p hp p2 hp2 hcond
    exact hno ⟨p, hp, p2, hp2, fun heq => hcond.1 (heq ▸ rfl),
      (listPfx_iff _ _).mp hcond.2⟩

/-- C6 witness: a unique index that is a strict column prefix of a plain index is
rejected as duplicated. -/
theorem C6_prefix_duplicate_indexes_witness :
    (((([(str "idxA", [str "Email"])] : List (List Char × List (List Char))) ++
        [(str "idxB", [str "Email", str "Name"])]).map Prod.fst).Nodup) ∧
    ∃ a b, validateIndexes [(str "idxA", [str "Email"])]
        [(str "idxB", [str "Email", str "Name"])] [] [] =
      some (SchemaErr.duplicatedIndex a b) :=
  ⟨by decide,
   (C6_prefix_duplicate_indexes [(str "idxA", [str "Email"])]
      [(str "idxB", [str "Email", str "Name"])] [] [] (by decide)).1
     ⟨(str "idxA", [str "Email"]), by decide,
      (str "idxB", [str "Email", str "Name"]), by decide,
      by decide, [str "Name"], by decide⟩⟩

/-! ### The single-row (queryOne) unique-index requirement (claim C4) -/

/-- Set equality of two column lists, as a decidable mutual-containment test. -/
def sameSetB (a b : List (List Char)) : Bool :=
  a.all (fun x => decide (x ∈ b)) && b.all (fun x => decide (x ∈ a))

theorem sameSetB_iff (a b : List (List Char)) :
    sameSetB a b = true ↔ (∀ x, x ∈ a ↔ x ∈ b) := by
  unfold sameSetB
  rw [Bool.and_eq_true, List.all_eq_true, List.all_eq_true]
  constructor
  · intro h x
    constructor
    · intro hx; simpa using h.1 x hx
    · intro hx; simpa using h.2 x hx
  · intro h
    constructor
    · intro x hx; simpa using (h x).mp hx
    · intro x hx; simpa using (h x).mpr hx

theorem cnt_of_nodup (cols : List (List Char)) (hnd : cols.Nodup) (x : List Char) :
    cnt x cols = if x ∈ cols then 1 else 0 := by
  induction cols with
  | nil => simp [cnt]
  | cons y ys ih =>
    rw [List.nodup_cons] at hnd
    by_cases hxy : x = y
    · subst hxy
      simp [cnt, ih hnd.2, hnd.1]
    · simp [cnt, hxy, ih hnd.2, List.mem_cons]

theorem countValid_eq_filter (qf cols : List (List Char)) (hnd : cols.Nodup) :
    countValid qf cols = (qf.filter (fun x => decide (x ∈ cols))).length := by
  induction qf with
  | nil => rfl
  | cons f fs ih =>
    unfold countValid at ih ⊢
    rw [List.map_cons, List.sum_cons, ih, cnt_of_nodup cols hnd f]
    by_cases hf : f ∈ cols
    · simp [hf, List.filter_cons]
      omega
    · simp [hf, List.filter_cons]

theorem filter_length_eq_all {α : Type} (l : List α) (p : α → Bool)
    (h : (l.filter p).length = l.length) : ∀ x ∈ l, p x = true := by
  induction l with
  | nil => intro x hx; cases hx
  | cons a as ih =>
    intro x hx
    by_cases hpa : p a = true
    · rw [List.filter_cons, if_pos hpa] at h
      simp only [List.length_cons, Nat.add_right_cancel_iff] at h
      rcases List.mem_cons.mp hx with rfl | hx'
      · exact hpa
      · exact ih h x hx'
    · rw [List.filter_cons, if_neg hpa] at h
      have hle := List.length_filter_le p as
      simp only [List.length_cons] at h
      omega

/-- The queryOne acceptance condition of `validateIndexes` is, for duplicate-free
column lists, exactly set equality of the filter columns and the index columns. -/
theorem queryOne_cond_iff (qf cols : List (List Char)) (hqf : qf.Nodup)
    (hcols : cols.Nodup) :
    ((cols.length == qf.length && countValid qf cols == cols.length) = true ↔
      sameSetB qf cols = true) := by
  rw [Bool.and_eq_true, beq_iff_eq, beq_iff_eq, sameSetB_iff,
    countValid_eq_filter qf cols hcols]
  constructor
  · rintro ⟨hlen, hcount⟩
    have hsub : ∀ x ∈ qf, x ∈ cols := by
      intro x hx
      have hlf : (qf.filter (fun x => decide (x ∈ cols))).length = qf.length := by omega
      have := filter_length_eq_all qf (fun x => decide (x ∈ cols)) hlf x hx
      simpa using this
    have hcard1 : qf.toFinset.card = qf.length := List.toFinset_card_of_nodup hqf
    have hcard2 : cols.toFinset.card = cols.length := List.toFinset_card_of_nodup hcols
    have hss : qf.toFinset ⊆ cols.toFinset := by
      intro x hx
      rw [List.mem_toFinset] at hx ⊢
      exact hsub x hx
    have heq : qf.toFinset = cols.toFinset :=
      Finset.eq_of_subset_of_card_le hss (by omega)
    intro x
    rw [← List.mem_toFinset, ← List.mem_toFinset (l := cols), heq]
  · intro hiff
    have heq : qf.toFinset = cols.toFinset := by
      ext x
      rw [List.mem_toFinset, List.mem_toFinset]
      exact hiff x
    have hcard1 : qf.toFinset.card = qf.length := List.toFinset_card_of_nodup hqf
    have hcard2 : cols.toFinset.card = cols.length := List.toFinset_card_of_nodup hcols
    have hlen : cols.length = qf.length := by rw [← hcard1, ← hcard2, heq]
    refine ⟨hlen, ?_⟩
    have hfilter : qf.filter (fun x => decide (x ∈ cols)) = qf := by
      rw [List.filter_eq_self]
      intro x hx
      simpa using (hiff x).mp hx
    rw [hfilter, hlen]

theorem queryOneCheck_eq_none_iff (uniq cachedOne : List (List Char × List (List Char))) :
    queryOneCheck uniq cachedOne = none ↔
      ∀ kv ∈ cachedOne, ∃ u ∈ uniq,
        (u.2.length == kv.2.length && countValid kv.2 u.2 == u.2.length) = true := by
  unfold queryOneCheck
  rw [List.findSome?_eq_none_iff]
  constructor
  · intro h kv hkv
    have h2 := h kv hkv
    by_cases hc : uniq.any
        (fun u => u.2.length == kv.2.length && countValid kv.2 u.2 == u.2.length) = true
    · rw [List.any_eq_true] at hc
      exact hc
    · rw [if_neg (by simpa using hc)] at h2
      cases h2
  · intro h kv hkv
    rw [if_pos]
    rw [List.any_eq_true]
    exact h kv hkv

theorem queryOneCheck_some_shape (uniq cachedOne : List (List Char × List (List Char)))
    (e : SchemaErr) (h : queryOneCheck uniq cachedOne = some e) :
    ∃ k, e = SchemaErr.missingUniqueIndex k := by
  unfold queryOneCheck at h
  obtain ⟨kv, _, hkv⟩ := List.exists_of_findSome?_eq_some h
  by_cases hc : uniq.any
      (fun u => u.2.length == kv.2.length && countValid kv.2 u.2 == u.2.length) = true
  · rw [if_pos hc] at hkv
    cases hkv
  · rw [if_neg hc] at hkv
    exact ⟨kv.1, by cases hkv; rfl⟩

/-- C4: given the other validation phases pass, registration succeeds exactly when
every single-row cached query's (duplicate-free) filter columns are exactly the
columns of some declared unique index, and otherwise fails with a
"missing unique index" error. -/
theorem C4_queryOne_requires_unique_index (uniq nonuniq cachedOne :
      List (List Char × List (List Char))) (cachedMulti : List CachedDef)
    (hdup : dupCheck (uniq ++ nonuniq) = none)
    (hmulti : multiCheck (uniq ++ nonuniq) cachedMulti = none)
    (hone : ∀ kv ∈ cachedOne, kv.2.Nodup)
    (huniq : ∀ u ∈ uniq, u.2.Nodup) :
    (validateIndexes uniq nonuniq cachedOne cachedMulti = none ↔
      ∀ kv ∈ cachedOne, ∃ u ∈ uniq, sameSetB kv.2 u.2 = true) ∧
    ((¬ ∀ kv ∈ cachedOne, ∃ u ∈ uniq, sameSetB kv.2 u.2 = true) →
      ∃ k, validateIndexes uniq nonuniq cachedOne cachedMulti =
        some (SchemaErr.missingUniqueIndex k)) := by
  have hcond : (queryOneCheck uniq cachedOne = none ↔
      ∀ kv ∈ cachedOne, ∃ u ∈ uniq, sameSetB kv.2 u.2 = true) := by
    rw [queryOneCheck_eq_none_iff]
    constructor
    · intro h kv hkv
      obtain ⟨u, hu, hc⟩ := h kv hkv
      exact ⟨u, hu, (queryOne_cond_iff kv.2 u.2 (hone kv hkv) (huniq u hu)).mp hc⟩
    · intro h kv hkv
      obtain ⟨u, hu, hc⟩ := h kv hkv
      exact ⟨u, hu, (queryOne_cond_iff kv.2 u.2 (hone kv hkv) (huniq u hu)).mpr hc⟩
  constructor
  · unfold validateIndexes
    rw [hdup]
    constructor
    · intro h
      rw [← hcond]
      cases hq : queryOneCheck uniq cachedOne with
      | none => rfl
      | some e => rw [hq] at h; cases h
    · intro h
      rw [← hcond] at h
      rw [h, hmulti]
  · intro h
    rw [← hcond] at h
    cases hq : queryOneCheck uniq cachedOne with
    | none => exact absurd hq h
    | some e =>
      obtain ⟨k, rfl⟩ := queryOneCheck_some_shape _ _ _ hq
      refine ⟨k, ?_⟩
      unfold validateIndexes
      rw [hdup, hq]

/-- C4 witness: Scenario A — a unique index on (Email) covers a queryOne template
filtering by :Email; removing the index yields the "missing unique index" error. -/
theorem C4_queryOne_requires_unique_index_witness :
    (validateIndexes [(str "uEmail", [str "Email"])] []
        [(str "byEmail", [str "Email"])] [] = none) ∧
    ∃ k, validateIndexes [] [] [(str "byEmail", [str "Email"])] [] =
      some (SchemaErr.missingUniqueIndex k) :=
  ⟨(C4_queryOne_requires_unique_index [(str "uEmail", [str "Email"])] []
      [(str "byEmail", [str "Email"])] [] (by decide) (by decide) (by decide)
      (by decide)).1.mpr (by decide),
   (C4_queryOne_requires_unique_index [] [] [(str "byEmail", [str "Email"])] []
      (by decide) (by decide) (by decide) (by decide)).2 (by decide)⟩

/-! ## Query-template builder (`tableSchema.init`, lines 332-360)

The builder finds all matches of the regexp `:([A-Za-z\d])+` (a colon followed
by a maximal nonempty run of ASCII letters/digits), collects the variable names
with stable de-duplication, and rewrites each match — one
`strings.Replace(query, variable, "`name`", 1)` per match occurrence — to a
backtick-quoted column reference. An empty declaration becomes the default
template, and entities with a soft-delete column get "`FakeDelete` = 0 AND "
prepended to explicit templates.

The regexp scan is modelled by a scanner producing a segment list (plain
characters and token names); its flattening is the original string, and the
mapped token list is exactly Go's `FindAllString(query, -1)`. -/

def isTokChar (c : Char) : Bool := c.isAlpha || c.isDigit

def headTok : List Char → Bool
  | [] => false
  | d :: _ => isTokChar d

inductive Seg where
  | chr (c : Char)
  | tok (name : List Char)
deriving DecidableEq

def scanQGo : Nat → List Char → List Seg
  | 0, _ => []
  | _ + 1, [] => []
  | fuel + 1, c :: rest =>
    if (c == ':') && headTok rest then
      Seg.tok (rest.takeWhile isTokChar) :: scanQGo fuel (rest.dropWhile isTokChar)
    else Seg.chr c :: scanQGo fuel rest

def scanQ (l : List Char) : List Seg := scanQGo l.length l

theorem dropWhile_length_le {α : Type} (p : α → Bool) :
    ∀ l : List α, (l.dropWhile p).length ≤ l.length := by
  intro l
  induction l with
  | nil => simp [List.dropWhile]
  | cons a as ih =>
    rw [List.dropWhile_cons]
    by_cases hp : p a = true
    · simp only [hp, if_true]
      exact Nat.le_succ_of_le ih
    · simp [hp]

theorem scanQGo_congr :
    ∀ (f1 f2 : Nat) (l : List Char), l.length ≤ f1 → l.length ≤ f2 →
      scanQGo f1 l = scanQGo f2 l := by
  intro f1
  induction f1 with
  | zero =>
    intro f2 l h1 _
    have : l = [] := List.length_eq_zero.mp (Nat.le_zero.mp h1)
    subst this
    cases f2 <;> rfl
  | succ f1 ih =>
    intro f2 l h1 h2
    cases l with
    | nil => cases f2 <;> rfl
    | cons c rest =>
      cases f2 with
      | zero => simp at h2
      | succ f2 =>
        simp only [scanQGo]
        simp only [List.length_cons, Nat.succ_le_succ_iff] at h1 h2
        by_cases hc : ((c == ':') && headTok rest) = true
        · rw [if_pos hc, if_pos hc]
          congr 1
          exact ih f2 _ (Nat.le_trans (dropWhile_length_le _ _) h1)
            (Nat.le_trans (dropWhile_length_le _ _) h2)
        · rw [if_neg hc, if_neg hc]
          congr 1
          exact ih f2 _ h1 h2

theorem scanQ_nil : scanQ [] = [] := rfl

theorem scanQ_cons (c : Char) (rest : List Char) :
    scanQ (c :: rest) =
      if (c == ':') && headTok rest then
        Seg.tok (rest.takeWhile isTokChar) :: scanQ (rest.dropWhile isTokChar)
      else Seg.chr c :: scanQ rest := by
  show scanQGo (rest.length + 1) (c :: rest) = _
  simp only [scanQGo]
  by_cases hc : ((c == ':') && headTok rest) = true
  · rw [if_pos hc, if_pos hc]
    congr 1
    exact scanQGo_congr rest.length _ _ (dropWhile_length_le _ _) (Nat.le_refl _)
  · rw [if_neg hc, if_neg hc]
    rfl

def flatSegs : List Seg → List Char
  | [] => []
  | Seg.chr c :: rest => c :: flatSegs rest
  | Seg.tok n :: rest => ':' :: (n ++ flatSegs rest)

def tokNames : List Seg → List (List Char)
  | [] => []
  | Seg.chr _ :: rest => tokNames rest
  | Seg.tok n :: rest => n :: tokNames rest

/-- Go `re.FindAllString(query, -1)` for the pattern `:([A-Za-z\d])+`. -/
def varsOf (segs : List Seg) : List (List Char) := (tokNames segs).map (fun n => ':' :: n)

/-- Segment-wise rewrite: every token `:name` replaced by a backticked name. -/
def rewriteSegs : List Seg → List Char
  | [] => []
  | Seg.chr c :: rest => c :: rewriteSegs rest
  | Seg.tok n :: rest => btick :: (n ++ btick :: rewriteSegs rest)

def pfxOf : List Char → List Char → Bool
  | [], _ => true
  | _ :: _, [] => false
  | a :: as, b :: bs => a == b && pfxOf as bs

/-- Go `strings.Replace(s, pat, rep, 1)`: replaces the first occurrence, or
returns `s` unchanged when `pat` does not occur. -/
def replaceFirst (pat rep : List Char) : List Char → List Char
  | [] => if pfxOf pat [] then rep else []
  | c :: rest =>
    if pfxOf pat (c :: rest) then rep ++ (c :: rest).drop pat.length
    else c :: replaceFirst pat rep rest

/-- The stable-de-duplicating `fields` accumulation of `init`. -/
def addField (fields : List (List Char)) (n : List Char) : List (List Char) :=
  if n ∈ fields then fields else fields ++ [n]

/-- The `for _, variable := range variables` loop: each iteration replaces the
first occurrence of the variable in the query and records the field name. -/
def goLoop : List Char → List (List Char) → List (List Char) →
    List Char × List (List Char)
  | q, fields, [] => (q, fields)
  | q, fields, v :: vs =>
    goLoop (replaceFirst v (btick :: (v.drop 1) ++ [btick]) q)
      (addField fields (v.drop 1)) vs

def fdTemplate : List Char := str "`FakeDelete` = 0 ORDER BY `ID`"

def fdAndPart : List Char := str "`FakeDelete` = 0 AND "

/-- The query-template construction of `init` for one declared `query`/`queryOne`
tag value, given whether the entity has a soft-delete column. Returns the final
query text and the accumulated field names. -/
def buildCachedQuery (hasFD : Bool) (q : List Char) : List Char × List (List Char) :=
  let vars := varsOf (scanQ q)
  let r := goLoop q [] vars
  let fields2 := if hasFD && !vars.isEmpty then r.2 ++ [fakeDeleteName] else r.2
  let q2 :=
    if r.1 = [] then (if hasFD then fdTemplate else defaultAllQuery)
    else if hasFD then fdAndPart ++ r.1 else r.1
  (q2, fields2)

/-- First-occurrence (stable) de-duplication, the specification-level description
of the `fields` accumulation. -/
def dedupFirstGo : Nat → List (List Char) → List (List Char)
  | 0, _ => []
  | _ + 1, [] => []
  | fuel + 1, n :: rest => n :: dedupFirstGo fuel (rest.filter (fun m => m != n))

def dedupFirst (l : List (List Char)) : List (List Char) := dedupFirstGo l.length l

theorem filter_length_le' {α : Type} (p : α → Bool) (l : List α) :
    (l.filter p).length ≤ l.length := List.length_filter_le p l

theorem dedupFirstGo_congr :
    ∀ (f1 f2 : Nat) (l : List (List Char)), l.length ≤ f1 → l.length ≤ f2 →
      dedupFirstGo f1 l = dedupFirstGo f2 l := by
  intro f1
  induction f1 with
  | zero =>
    intro f2 l h1 _
    have : l = [] := List.length_eq_zero.mp (Nat.le_zero.mp h1)
    subst this
    cases f2 <;> rfl
  | succ f1 ih =>
    intro f2 l h1 h2
    cases l with
    | nil => cases f2 <;> rfl
    | cons n rest =>
      cases f2 with
      | zero => simp at h2
      | succ f2 =>
        simp only [dedupFirstGo, List.cons.injEq, true_and]
        simp only [List.length_cons, Nat.succ_le_succ_iff] at h1 h2
        exact ih f2 _ (Nat.le_trans (filter_length_le' _ _) h1)
          (Nat.le_trans (filter_length_le' _ _) h2)

theorem dedupFirst_nil : dedupFirst [] = [] := rfl

theorem dedupFirst_cons (n : List Char) (rest : List (List Char)) :
    dedupFirst (n :: rest) = n :: dedupFirst (rest.filter (fun m => m != n)) := by
  show dedupFirstGo (rest.length + 1) (n :: rest) = _
  simp only [dedupFirstGo, List.cons.injEq, true_and]
  exact dedupFirstGo_congr rest.length _ _ (filter_length_le' _ _) (Nat.le_refl _)

theorem flatSegs_scanQ_aux :
    ∀ (n : Nat) (l : List Char), l.length ≤ n → flatSegs (scanQ l) = l := by
  intro n
  induction n with
  | zero =>
    intro l h
    have : l = [] := List.length_eq_zero.mp (Nat.le_zero.mp h)
    subst this
    rfl
  | succ n ih =>
    intro l h
    cases l with
    | nil => rfl
    | cons c rest =>
      rw [scanQ_cons]
      simp only [List.length_cons, Nat.succ_le_succ_iff] at h
      by_cases hc : ((c == ':') && headTok rest) = true
      · rw [if_pos hc]
        simp only [flatSegs]
        rw [ih _ (Nat.le_trans (dropWhile_length_le _ _) h)]
        rw [List.takeWhile_append_dropWhile]
        rw [Bool.and_eq_true] at hc
        rw [eq_of_beq hc.1]
      · rw [if_neg hc]
        simp only [flatSegs]
        rw [ih rest h]

theorem flatSegs_scanQ (l : List Char) : flatSegs (scanQ l) = l :=
  flatSegs_scanQ_aux l.length l (Nat.le_refl _)

def tokOk : Seg → Prop
  | Seg.chr _ => True
  | Seg.tok n => n ≠ [] ∧ n.all isTokChar = true

/-- Scanner adjacency invariant: a plain ':' is never followed by a plain
token character (such a pair would have been scanned as a token). -/
def segOkR (s1 s2 : Seg) : Prop :=
  s1 = Seg.chr ':' → ∀ c2, s2 = Seg.chr c2 → isTokChar c2 = false

def WFSegs (segs : List Seg) : Prop :=
  (∀ s ∈ segs, tokOk s) ∧ List.Chain' segOkR segs

theorem takeWhile_all {α : Type} (p : α → Bool) :
    ∀ l : List α, ∀ x ∈ l.takeWhile p, p x = true := by
  intro l
  induction l with
  | nil => intro x hx; cases hx
  | cons a as ih =>
    intro x hx
    rw [List.takeWhile_cons] at hx
    by_cases hp : p a = true
    · rw [if_pos hp] at hx
      rcases List.mem_cons.mp hx with rfl | hx'
      · exact hp
      · exact ih x hx'
    · rw [if_neg hp] at hx
      cases hx

theorem scanQ_head_chr (l : List Char) (c2 : Char)
    (h : (scanQ l).head? = some (Seg.chr c2)) : l.head? = some c2 := by
  cases l with
  | nil => cases h
  | cons c rest =>
    rw [scanQ_cons] at h
    by_cases hc : ((c == ':') && headTok rest) = true
    · rw [if_pos hc] at h
      simp at h
    · rw [if_neg hc] at h
      simp only [List.head?_cons, Option.some.injEq, Seg.chr.injEq] at h
      rw [h]
      rfl

theorem scanQ_wf_aux :
    ∀ (n : Nat) (l : List Char), l.length ≤ n → WFSegs (scanQ l) := by
  intro n
  induction n with
  | zero =>
    intro l h
    have : l = [] := List.length_eq_zero.mp (Nat.le_zero.mp h)
    subst this
    exact ⟨fun s hs => absurd hs (by simp [scanQ_nil]), by simp [scanQ_nil]⟩
  | succ n ih =>
    intro l h
    cases l with
    | nil => exact ⟨fun s hs => absurd hs (by simp [scanQ_nil]), by simp [scanQ_nil]⟩
    | cons c rest =>
      rw [scanQ_cons]
      simp only [List.length_cons, Nat.succ_le_succ_iff] at h
      by_cases hc : ((c == ':') && headTok rest) = true
      · rw [if_pos hc]
        have hrec := ih (rest.dropWhile isTokChar)
          (Nat.le_trans (dropWhile_length_le isTokChar rest) h)
        rw [Bool.and_eq_true] at hc
        have htk : headTok rest = true := hc.2
        refine ⟨?_, ?_⟩
        · intro s hs
          rcases List.mem_cons.mp hs with rfl | hs'
          · refine ⟨?_, ?_⟩
            · cases rest with
              | nil => cases htk
              | cons d rest' =>
                have hd : isTokChar d = true := htk
                rw [List.takeWhile_cons, if_pos hd]
                exact List.cons_ne_nil d _
            · rw [List.all_eq_true]
              exact takeWhile_all isTokChar rest
          · exact hrec.1 s hs'
        · rw [List.chain'_cons']
          refine ⟨?_, hrec.2⟩
          intro s2 _ hcontra
          cases hcontra
      · rw [if_neg hc]
        have hrec := ih rest h
        refine ⟨?_, ?_⟩
        · intro s hs
          rcases List.mem_cons.mp hs with rfl | hs'
          · trivial
          · exact hrec.1 s hs'
        · rw [List.chain'_cons']
          refine ⟨?_, hrec.2⟩
          intro s2 hs2 hchr c2 hs2chr
          subst hs2chr
          have hcc : c = ':' := by
            injection hchr
          have hhead := scanQ_head_chr rest c2 hs2
          cases rest with
          | nil => cases hhead
          | cons d rest' =>
            simp only [List.head?_cons, Option.some.injEq] at hhead
            rw [hcc] at hc
            have hh : headTok (d :: rest') = false := by
              by_cases hb : headTok (d :: rest') = true
              · exact absurd (by simp [hb]) hc
              · simpa using hb
            rw [← hhead]
            simpa [headTok] using hh

theorem scanQ_wf (l : List Char) : WFSegs (scanQ l) :=
  scanQ_wf_aux l.length l (Nat.le_refl _)

/-- Character-level adjacency invariant of a rewritten query: no ':' directly
followed by a token character, so no token pattern occurs in it. -/
def okPair (c1 c2 : Char) : Prop := c1 = ':' → isTokChar c2 = false

theorem chain'_no_colon_append (pre tail : List Char)
    (h : ∀ c ∈ pre, ¬ c = ':') (ht : List.Chain' okPair tail) :
    List.Chain' okPair (pre ++ tail) := by
  induction pre with
  | nil => simpa
  | cons a pre' ih =>
    rw [List.cons_append]
    rw [List.chain'_cons']
    refine ⟨?_, ih (fun c hc => h c (List.mem_cons_of_mem a hc))⟩
    intro b _ hcolon
    exact absurd hcolon (h a (List.mem_cons_self a pre'))

theorem WFSegs_tail (s : Seg) (rest : List Seg) (h : WFSegs (s :: rest)) : WFSegs rest :=
  ⟨fun x hx => h.1 x (List.mem_cons_of_mem s hx), (List.chain'_cons'.mp h.2).2⟩

theorem rewriteSegs_chain (segs : List Seg) (hwf : WFSegs segs) :
    List.Chain' okPair (rewriteSegs segs) := by
  induction segs with
  | nil => simp [rewriteSegs]
  | cons s rest ih =>
    have hwf' : WFSegs rest := WFSegs_tail s rest hwf
    cases s with
    | chr c =>
      simp only [rewriteSegs]
      rw [List.chain'_cons']
      refine ⟨?_, ih hwf'⟩
      intro b hb hcolon
      cases rest with
      | nil => simp [rewriteSegs] at hb
      | cons s2 rest2 =>
        cases s2 with
        | chr c2 =>
          simp only [rewriteSegs, List.head?_cons, Option.mem_def, Option.some.injEq] at hb
          subst hb
          have hR := (List.chain'_cons'.mp hwf.2).1 (Seg.chr c2) (by simp [rewriteSegs])
          exact hR (by rw [hcolon]) c2 rfl
        | tok nm =>
          simp only [rewriteSegs, List.head?_cons, Option.mem_def, Option.some.injEq] at hb
          subst hb
          decide
    | tok nm =>
      have htok : tokOk (Seg.tok nm) := hwf.1 _ (List.mem_cons_self _ _)
      simp only [rewriteSegs]
      have hform : btick :: (nm ++ btick :: rewriteSegs rest) =
          (btick :: nm ++ [btick]) ++ rewriteSegs rest := by
        simp
      rw [hform]
      apply chain'_no_colon_append
      · intro c hc hceq
        subst hceq
        rcases List.mem_cons.mp hc with hbt | hc'
        · exact absurd hbt.symm (by decide)
        · rcases List.mem_append.mp hc' with hin | hbt2
          · have := htok.2
            rw [List.all_eq_true] at this
            have htc := this _ hin
            revert htc
            decide
          · rcases List.mem_singleton.mp hbt2 with hbt3
            exact absurd hbt3.symm (by decide)
      · exact ih hwf'

theorem pfxOf_self_append : ∀ (p z : List Char), pfxOf p (p ++ z) = true := by
  intro p
  induction p with
  | nil => intro z; rfl
  | cons a as ih =>
    intro z
    simp only [List.cons_append, pfxOf, Bool.and_eq_true, beq_self_eq_true, true_and]
    exact ih z

theorem replaceFirst_at (pat rep z : List Char) :
    replaceFirst pat rep (pat ++ z) = rep ++ z := by
  cases pat with
  | nil =>
    cases z with
    | nil => simp [replaceFirst, pfxOf]
    | cons c rest => simp [replaceFirst, pfxOf]
  | cons p0 ps =>
    rw [List.cons_append]
    simp only [replaceFirst]
    rw [if_pos (by simpa using pfxOf_self_append (p0 :: ps) z)]
    congr 1
    show (p0 :: (ps ++ z)).drop (ps.length + 1) = z
    rw [List.drop_succ_cons]
    exact List.drop_left ps z

theorem replaceFirst_skip (c0 : Char) (t rep : List Char) (hc0 : isTokChar c0 = true) :
    ∀ (x y : List Char), List.Chain' okPair x → y.head? = some ':' →
      replaceFirst (':' :: c0 :: t) rep (x ++ y) =
        x ++ replaceFirst (':' :: c0 :: t) rep y := by
  intro x
  induction x with
  | nil => intro y _ _; simp
  | cons a xs ih =>
    intro y hch hy
    rw [List.cons_append]
    simp only [replaceFirst]
    have hnp : ¬ pfxOf (':' :: c0 :: t) (a :: (xs ++ y)) = true := by
      intro hp
      simp only [pfxOf, Bool.and_eq_true] at hp
      have ha : ':' = a := eq_of_beq hp.1
      have h2 := hp.2
      cases xs with
      | nil =>
        rw [List.nil_append] at h2
        cases y with
        | nil => cases hy
        | cons y0 ys =>
          simp only [List.head?_cons, Option.some.injEq] at hy
          subst hy
          simp only [pfxOf, Bool.and_eq_true] at h2
          have : c0 = ':' := eq_of_beq h2.1
          rw [this] at hc0
          cases hc0
      | cons b xs' =>
        rw [List.cons_append] at h2
        simp only [pfxOf, Bool.and_eq_true] at h2
        have hcb : c0 = b := eq_of_beq h2.1
        have hR := (List.chain'_cons'.mp hch).1 b (by simp)
        have := hR ha.symm
        rw [← hcb] at this
        rw [this] at hc0
        cases hc0
    rw [if_neg hnp]
    rw [ih y (List.chain'_cons'.mp hch).2 hy]
    simp

theorem WFSegs_left (a b : List Seg) (h : WFSegs (a ++ b)) : WFSegs a :=
  ⟨fun s hs => h.1 s (List.mem_append_left b hs), h.2.left_of_append⟩

theorem rewriteSegs_append (a b : List Seg) :
    rewriteSegs (a ++ b) = rewriteSegs a ++ rewriteSegs b := by
  induction a with
  | nil => simp [rewriteSegs]
  | cons s rest ih =>
    cases s with
    | chr c => simp [rewriteSegs, ih]
    | tok nm => simp [rewriteSegs, ih]

/-- The iterated first-occurrence replacements of the `init` loop compute the
one-pass segment rewrite: processed segments never contain a token pattern, so
each `strings.Replace(..., 1)` hits exactly the next token occurrence. -/
theorem goLoop_rewrite :
    ∀ (post pre : List Seg) (fields : List (List Char)),
      WFSegs (pre ++ post) →
      (goLoop (rewriteSegs pre ++ flatSegs post) fields (varsOf post)).1 =
        rewriteSegs (pre ++ post) := by
  intro post
  induction post with
  | nil =>
    intro pre fields _
    simp [varsOf, tokNames, goLoop, flatSegs]
  | cons s post' ih =>
    intro pre fields hwf
    cases s with
    | chr c =>
      have h1 : varsOf (Seg.chr c :: post') = varsOf post' := by
        simp [varsOf, tokNames]
      have h2 : rewriteSegs pre ++ flatSegs (Seg.chr c :: post') =
          rewriteSegs (pre ++ [Seg.chr c]) ++ flatSegs post' := by
        simp [flatSegs, rewriteSegs_append, rewriteSegs]
      have h3 : pre ++ Seg.chr c :: post' = (pre ++ [Seg.chr c]) ++ post' := by
        simp
      rw [h1, h2, h3]
      rw [h3] at hwf
      exact ih (pre ++ [Seg.chr c]) fields hwf
    | tok nm =>
      have htok : tokOk (Seg.tok nm) := hwf.1 _ (by simp)
      obtain ⟨c0, t, rfl⟩ : ∃ c0 t, nm = c0 :: t := by
        cases nm with
        | nil => exact absurd rfl htok.1
        | cons a l => exact ⟨a, l, rfl⟩
      have hc0 : isTokChar c0 = true := by
        have h := htok.2
        rw [List.all_cons, Bool.and_eq_true] at h
        exact h.1
      have h1 : varsOf (Seg.tok (c0 :: t) :: post') =
          (':' :: c0 :: t) :: varsOf post' := by
        simp [varsOf, tokNames]
      rw [h1]
      simp only [goLoop]
      have hq : rewriteSegs pre ++ flatSegs (Seg.tok (c0 :: t) :: post') =
          rewriteSegs pre ++ ((':' :: c0 :: t) ++ flatSegs post') := by
        simp [flatSegs]
      rw [hq]
      have hch : List.Chain' okPair (rewriteSegs pre) :=
        rewriteSegs_chain pre (WFSegs_left pre _ hwf)
      rw [replaceFirst_skip c0 t _ hc0 (rewriteSegs pre)
        ((':' :: c0 :: t) ++ flatSegs post') hch (by simp)]
      rw [replaceFirst_at]
      have h2 : rewriteSegs pre ++
          ((btick :: ((':' :: c0 :: t).drop 1) ++ [btick]) ++ flatSegs post') =
          rewriteSegs (pre ++ [Seg.tok (c0 :: t)]) ++ flatSegs post' := by
        simp [rewriteSegs_append, rewriteSegs]
      rw [h2]
      have h3 : pre ++ Seg.tok (c0 :: t) :: post' =
          (pre ++ [Seg.tok (c0 :: t)]) ++ post' := by
        simp
      rw [h3]
      rw [h3] at hwf
      exact ih (pre ++ [Seg.tok (c0 :: t)]) (addField fields ((':' :: c0 :: t).drop 1)) hwf

/-- The `fields` component of the loop depends only on the variable list. -/
def fieldsFold : List (List Char) → List (List Char) → List (List Char)
  | [], fields => fields
  | v :: vs, fields => fieldsFold vs (addField fields (v.drop 1))

theorem goLoop_fields :
    ∀ (vs : List (List Char)) (q : List Char) (fields : List (List Char)),
      (goLoop q fields vs).2 = fieldsFold vs fields := by
  intro vs
  induction vs with
  | nil => intro q fields; rfl
  | cons v vs ih =>
    intro q fields
    simp only [goLoop, fieldsFold]
    exact ih _ _

theorem fieldsFold_dedup :
    ∀ (ns : List (List Char)) (acc : List (List Char)),
      fieldsFold (ns.map (fun n => ':' :: n)) acc =
        acc ++ dedupFirst (ns.filter (fun m => !(decide (m ∈ acc)))) := by
  intro ns
  induction ns with
  | nil => intro acc; simp [fieldsFold, dedupFirst_nil]
  | cons n ns' ih =>
    intro acc
    rw [List.map_cons]
    simp only [fieldsFold]
    have hdrop : ((':' :: n).drop 1) = n := rfl
    rw [hdrop]
    by_cases hn : n ∈ acc
    · rw [addField, if_pos hn]
      rw [ih acc]
      congr 2
      rw [List.filter_cons]
      simp [hn]
    · rw [addField, if_neg hn]
      rw [ih (acc ++ [n])]
      rw [List.filter_cons]
      have hkeep : (!(decide (n ∈ acc))) = true := by simp [hn]
      rw [if_pos hkeep]
      rw [dedupFirst_cons]
      have hfilters : ns'.filter (fun m => !(decide (m ∈ acc ++ [n]))) =
          (ns'.filter (fun m => !(decide (m ∈ acc)))).filter (fun m => m != n) := by
        rw [List.filter_filter]
        apply List.filter_congr
        intro m _
        by_cases h1 : m ∈ acc
        · simp [h1]
        · by_cases h2 : m = n
          · simp [h1, h2]
          · simp [h1, h2]
      rw [hfilters]
      simp

theorem scanQ_ne_nil (c : Char) (rest : List Char) : scanQ (c :: rest) ≠ [] := by
  rw [scanQ_cons]
  by_cases hc : ((c == ':') && headTok rest) = true
  · rw [if_pos hc]
    exact List.cons_ne_nil _ _
  · rw [if_neg hc]
    exact List.cons_ne_nil _ _

theorem rewriteSegs_ne_nil (s : Seg) (segs : List Seg) : rewriteSegs (s :: segs) ≠ [] := by
  cases s with
  | chr c => simp [rewriteSegs]
  | tok nm => simp [rewriteSegs]

/-- C7: `init`'s template builder extracts the `:variableName` tokens in
declaration order with stable (first-occurrence) de-duplication — appending
"FakeDelete" for soft-deleting entities — rewrites every token occurrence to a
backtick-quoted column reference (`rewriteSegs` of the token decomposition),
synthesizes the default all-rows template for an empty declaration, and prepends
the soft-delete filter to every explicit template. -/
theorem C7_query_template_builder (hasFD : Bool) (q : List Char) :
    (buildCachedQuery hasFD q).2 =
      dedupFirst (tokNames (scanQ q)) ++
        (if hasFD && !(varsOf (scanQ q)).isEmpty then [fakeDeleteName] else []) ∧
    (q = [] → (buildCachedQuery hasFD q).1 = (if hasFD then fdTemplate else defaultAllQuery)) ∧
    (q ≠ [] → (buildCachedQuery hasFD q).1 =
      (if hasFD then fdAndPart else []) ++ rewriteSegs (scanQ q)) := by
  have hquery : (goLoop q [] (varsOf (scanQ q))).1 = rewriteSegs (scanQ q) := by
    have h := goLoop_rewrite (scanQ q) [] []
      (by simpa using scanQ_wf q)
    simpa [rewriteSegs, flatSegs_scanQ] using h
  have hfields : (goLoop q [] (varsOf (scanQ q))).2 = dedupFirst (tokNames (scanQ q)) := by
    rw [goLoop_fields]
    have h := fieldsFold_dedup (tokNames (scanQ q)) []
    simpa [varsOf] using h
  refine ⟨?_, ?_, ?_⟩
  · show (if hasFD && !(varsOf (scanQ q)).isEmpty
        then (goLoop q [] (varsOf (scanQ q))).2 ++ [fakeDeleteName]
        else (goLoop q [] (varsOf (scanQ q))).2) = _
    rw [hfields]
    by_cases hcond : (hasFD && !(varsOf (scanQ q)).isEmpty) = true
    · rw [if_pos hcond, if_pos hcond]
    · rw [if_neg hcond, if_neg hcond]
      simp
  · intro hq
    subst hq
    simp [buildCachedQuery, scanQ_nil, varsOf, tokNames, goLoop]
  · intro hq
    obtain ⟨c, rest, rfl⟩ : ∃ c rest, q = c :: rest := by
      cases q with
      | nil => exact absurd rfl hq
      | cons c rest => exact ⟨c, rest, rfl⟩
    have hne : rewriteSegs (scanQ (c :: rest)) ≠ [] := by
      cases hscan : scanQ (c :: rest) with
      | nil => exact absurd hscan (scanQ_ne_nil c rest)
      | cons s segs => exact hscan ▸ rewriteSegs_ne_nil s segs
    show (if (goLoop (c :: rest) [] (varsOf (scanQ (c :: rest)))).1 = []
        then (if hasFD then fdTemplate else defaultAllQuery)
        else if hasFD then fdAndPart ++ (goLoop (c :: rest) [] (varsOf (scanQ (c :: rest)))).1
        else (goLoop (c :: rest) [] (varsOf (scanQ (c :: rest)))).1) = _
    rw [hquery, if_neg hne]
    cases hasFD with
    | false => simp
    | true => simp

/-- C7 witness: the builder contract applied at the explicit template ":Email"
for a soft-deleting entity. -/
theorem C7_query_template_builder_witness :
    (str ":Email" ≠ ([] : List Char)) ∧
    (buildCachedQuery true (str ":Email")).1 =
      (if true then fdAndPart else []) ++ rewriteSegs (scanQ (str ":Email")) :=
  ⟨by decide, (C7_query_template_builder true (str ":Email")).2.2 (by decide)⟩

/-- Concrete evaluation of the builder: duplicated variables are replaced per
occurrence, fields are collected once each, and the soft-delete filter is
prepended. -/
theorem buildCachedQuery_sample :
    buildCachedQuery true (str ":Email AND :Age > :Email") =
      (str "`FakeDelete` = 0 AND `Email` AND `Age` > `Email`",
        [str "Email", str "Age", str "FakeDelete"]) := by
  decide

/-- Concrete evaluation: an empty declaration synthesizes the default template. -/
theorem buildCachedQuery_default_sample :
    buildCachedQuery false [] = (defaultAllQuery, []) ∧
    buildCachedQuery true [] = (fdTemplate, []) := by
  constructor
  · decide
  · decide

end Beeorm
